import Mathlib

/-!
Verification of the sliding-window rate limiter core.

The embedding covers:
* the window store (an LRU + TTL bounded cache keyed by caller token),
* `rateLimit` / `check` (the allow-deny decision logic),
* `getRateLimitIdentifier` (caller-key derivation), and
* `validateContentType` (request content-type validation).

Time is modelled as an `Int` number of milliseconds (the value of
`Date.now()` at the moment of a call), passed explicitly to every
operation that reads the clock.  Stateful operations take the cache
state and return the updated state.
-/

/-- Configuration of one limiter instance: `interval` is the sliding
window length in milliseconds, `uniqueTokenPerInterval` the maximum
number of distinct tracked tokens. -/
structure RateLimitOptions where
  interval : Int
  uniqueTokenPerInterval : Nat
deriving DecidableEq

/-- Modelled from the spec: the window store is the `lru-cache`
dependency (not part of this repository's sources), specified in §4.1
as a bounded key-to-entry map with LRU eviction at `max` entries and
lazy TTL expiry after `ttl` milliseconds of no write.  Entries are kept
most-recently-used first; each entry records its key, its stored
timestamp list, and the time it was last written. -/
structure LRUCache where
  max : Nat
  ttl : Int
  entries : List (String × List Int × Int)
deriving DecidableEq

/-- Modelled from the spec: `get` returns the live value for `key`
(refreshing its LRU recency by moving it to the front), or `none` when
the key is absent or its entry is older than `ttl` milliseconds since
its last write (a stale entry is lazily dropped). -/
def LRUCache.get (c : LRUCache) (now : Int) (key : String) :
    Option (List Int) × LRUCache :=
  match c.entries.find? (fun e => e.1 == key) with
  | none => (none, c)
  | some e =>
    if c.ttl < now - e.2.2 then
      (none, ⟨c.max, c.ttl, c.entries.filter (fun x => x.1 != key)⟩)
    else
      (some e.2.1, ⟨c.max, c.ttl, e :: c.entries.filter (fun x => x.1 != key)⟩)

/-- Modelled from the spec: `set` inserts or replaces the entry for
`key` at the most-recent position with a fresh TTL stamp; when the
store is full the least-recently-used entries (the tail beyond
`max - 1` survivors) are evicted. -/
def LRUCache.set (c : LRUCache) (now : Int) (key : String) (v : List Int) :
    LRUCache :=
  ⟨c.max, c.ttl, (key, v, now) :: (c.entries.filter (fun x => x.1 != key)).take (c.max - 1)⟩

/-- The raw stored timestamp list for `key`, disregarding TTL (proof
helper; corresponds to inspecting the cache's current contents). -/
def LRUCache.peek (c : LRUCache) (key : String) : Option (List Int) :=
  (c.entries.find? (fun e => e.1 == key)).map (fun e => e.2.1)

/-- The value `key` maps to as observable by a `get` at time `now`:
`none` when absent or stale, otherwise the stored timestamp list. -/
def LRUCache.liveView (c : LRUCache) (now : Int) (key : String) :
    Option (List Int) :=
  match c.entries.find? (fun e => e.1 == key) with
  | none => none
  | some e => if c.ttl < now - e.2.2 then none else some e.2.1

/-- The `tokenCache` constructed by `rateLimit`: `max` entries bounded
by `uniqueTokenPerInterval` and `ttl` equal to the window `interval`,
initially empty. -/
def rateLimit (o : RateLimitOptions) : LRUCache :=
  ⟨o.uniqueTokenPerInterval, o.interval, []⟩

/-- The limiter's `check(limit, token)` at clock value `now`: fetch the
entry (absent becomes the one-element sentinel list `[0]`), keep only
timestamps with `now - timestamp < interval`, deny with `remaining = 0`
when at least `limit` survive (no write), otherwise append `now`, write
back, and allow with `remaining = limit - newLength`.  Returns the
`(success, remaining)` verdict and the updated cache. -/
def check (o : RateLimitOptions) (c : LRUCache) (now : Int) (limit : Int)
    (token : String) : (Bool × Int) × LRUCache :=
  let g := c.get now token
  let tokenCount := g.1.getD [0]
  let validTimestamps := tokenCount.filter (fun ts => decide (now - ts < o.interval))
  if limit ≤ (validTimestamps.length : Int) then
    ((false, 0), g.2)
  else
    ((true, limit - ((validTimestamps.length : Int) + 1)),
      g.2.set now token (validTimestamps ++ [now]))

/-- Runs a sequence of `check` calls at the given clock values,
threading the cache state and collecting each call's verdict. -/
def runChecks (o : RateLimitOptions) (limit : Int) (token : String) :
    LRUCache → List Int → List (Bool × Int)
  | _, [] => []
  | c, t :: ts =>
    let r := check o c t limit token
    r.1 :: runChecks o limit token r.2 ts

/-- The options of the `apiLimiter` instance: a one-minute window and
at most 500 tracked tokens. -/
def apiLimiterOptions : RateLimitOptions := ⟨60 * 1000, 500⟩

/-- A request, reduced to what the helpers read from it: its header
map, where `none` models an absent header and `some ""` a header that
is present with an empty value. -/
structure NextRequest where
  headers : String → Option String

/-- Models the JavaScript expression `x || y` for `x` a string-or-null
and `y` a string: both `null` and the empty string are falsy. -/
def jsOrStr (x : Option String) (y : String) : String :=
  match x with
  | none => y
  | some v => if v = "" then y else v

/-- Key derivation from the source: prefer a truthy `userId` (prefix
`user:`), else fall back through the `x-forwarded-for` and `x-real-ip`
headers to the literal `unknown` (prefix `ip:`). -/
def getRateLimitIdentifier (req : NextRequest) (userId : Option String) :
    String :=
  if userId.getD "" ≠ "" then "user:" ++ userId.getD ""
  else
    "ip:" ++ jsOrStr (req.headers "x-forwarded-for")
      (jsOrStr (req.headers "x-real-ip") "unknown")

/-- Models JavaScript `toLowerCase()`: lower-cases every character. -/
def strToLower (s : String) : String :=
  ⟨s.data.map Char.toLower⟩

/-- Models JavaScript `startsWith(p)`: the first `p.length` characters
of `s` equal `p`. -/
def strStartsWith (s p : String) : Bool :=
  s.data.take p.data.length == p.data

/-- Content-type validation from the source: a missing or empty
`content-type` header is rejected; otherwise the header value must
start, case-insensitively, with the expected type. -/
def validateContentType (req : NextRequest) (expectedType : String) : Bool :=
  match req.headers "content-type" with
  | none => false
  | some ct =>
    if ct = "" then false
    else strStartsWith (strToLower ct) (strToLower expectedType)

/-- Key derivation as claim C6 words it: the fallback takes the
forwarded-address header whenever it is present (its value may be
empty), else the real-address header whenever present, else the
literal `unknown`. -/
def identifyClaimIp (req : NextRequest) : String :=
  "ip:" ++
    (match req.headers "x-forwarded-for" with
     | some v => v
     | none =>
       match req.headers "x-real-ip" with
       | some v => v
       | none => "unknown")

/-- Key derivation as claim C6 words it, including the user branch. -/
def identifyClaim (req : NextRequest) (userId : Option String) : String :=
  match userId with
  | some u => if u = "" then identifyClaimIp req else "user:" ++ u
  | none => identifyClaimIp req

/-- Key derivation as amended: a header also falls through when it is
present but empty, mirroring JavaScript truthiness. -/
def identifyAmendedIp (req : NextRequest) : String :=
  "ip:" ++
    (match req.headers "x-forwarded-for" with
     | some v =>
       if v = "" then
         match req.headers "x-real-ip" with
         | some w => if w = "" then "unknown" else w
         | none => "unknown"
       else v
     | none =>
       match req.headers "x-real-ip" with
       | some w => if w = "" then "unknown" else w
       | none => "unknown")

/-- Key derivation as amended, including the user branch. -/
def identifyAmended (req : NextRequest) (userId : Option String) : String :=
  match userId with
  | some u => if u = "" then identifyAmendedIp req else "user:" ++ u
  | none => identifyAmendedIp req

/-- Content-type validation as claim C10 words it: false when the
header is absent, and otherwise true exactly when the header value
starts, case-insensitively, with the expected type. -/
def validateContentTypeClaim (req : NextRequest) (expectedType : String) : Bool :=
  match req.headers "content-type" with
  | none => false
  | some ct => strStartsWith (strToLower ct) (strToLower expectedType)

/-- Filtering out a key removes every entry `find?` could return for it. -/
theorem find_filterNe_self (l : List (String × List Int × Int)) (k : String) :
    (l.filter (fun x => x.1 != k)).find? (fun e => e.1 == k) = none := by
  rw [List.find?_eq_none]
  intro x hx
  have hxk := (List.mem_filter.mp hx).2
  simp only [bne_iff_ne, ne_eq] at hxk
  simp [hxk]

/-- Filtering out one key leaves `find?` for any other key unchanged. -/
theorem find_filterNe_ne (l : List (String × List Int × Int)) (k k' : String)
    (h : k' ≠ k) :
    (l.filter (fun x => x.1 != k)).find? (fun e => e.1 == k') =
      l.find? (fun e => e.1 == k') := by
  induction l with
  | nil => rfl
  | cons a l ih =>
    by_cases ha : a.1 = k
    · have h1 : (a.1 != k) = false := by simp [ha]
      have h2 : (a.1 == k') = false := by
        simp only [beq_eq_false_iff_ne, ne_eq, ha]
        exact fun hh => h hh.symm
      rw [List.filter_cons, h1]
      simp only [Bool.false_eq_true, if_false, List.find?_cons, h2, ih]
    · have h1 : (a.1 != k) = true := by simp [ha]
      rw [List.filter_cons, h1]
      simp only [if_true, List.find?_cons, ih]

/-- A `get` on a token absent from the cache returns `none` and leaves
the cache unchanged. -/
theorem LRUCache.get_of_fresh (c : LRUCache) (now : Int) (token : String)
    (hfresh : ∀ e ∈ c.entries, e.1 ≠ token) :
    c.get now token = (none, c) := by
  unfold LRUCache.get
  have : c.entries.find? (fun e => e.1 == token) = none := by
    rw [List.find?_eq_none]
    intro x hx
    simp [hfresh x hx]
  rw [this]

/-- A `get` on a token whose entry sits at the front of the cache and
is still within its TTL returns that entry's value and leaves the
cache unchanged. -/
theorem LRUCache.get_head_live (c : LRUCache) (now : Int) (token : String)
    (L : List Int) (s : Int) (R : List (String × List Int × Int))
    (hc : c.entries = (token, L, s) :: R)
    (hR : ∀ e ∈ R, e.1 ≠ token)
    (hlive : ¬ c.ttl < now - s) :
    c.get now token = (some L, c) := by
  unfold LRUCache.get
  rw [hc]
  have hhd : ((token, L, s).1 == token) = true := by simp
  rw [List.find?_cons, hhd]
  simp only [hlive, if_false]
  have hfil : ((token, L, s) :: R).filter (fun x => x.1 != token) = R := by
    rw [List.filter_cons]
    have : ((token, L, s).1 != token) = false := by simp
    rw [this]
    simp only [Bool.false_eq_true, if_false]
    exact List.filter_eq_self.mpr (fun a ha => by simp [hR a ha])
  rw [hfil]
  cases c with
  | mk m t e => simp_all

/-- Evaluating `check` once the underlying `get` result is known. -/
theorem check_eq_of_get (o : RateLimitOptions) (c c' : LRUCache)
    (now limit : Int) (token : String) (g : Option (List Int))
    (hg : c.get now token = (g, c')) :
    check o c now limit token =
      (if limit ≤ (((g.getD [0]).filter (fun ts => decide (now - ts < o.interval))).length : Int) then
        ((false, 0), c')
      else
        ((true, limit - ((((g.getD [0]).filter (fun ts => decide (now - ts < o.interval))).length : Int) + 1)),
          c'.set now token ((g.getD [0]).filter (fun ts => decide (now - ts < o.interval)) ++ [now]))) := by
  unfold check
  rw [hg]

/-- A `get` never changes what any key maps to as observable by reads:
it only refreshes recency or lazily drops an already-stale entry. -/
theorem LRUCache.get_liveView (c : LRUCache) (now : Int) (key k : String) :
    ((c.get now key).2).liveView now k = c.liveView now k := by
  unfold LRUCache.get
  cases hf : c.entries.find? (fun e => e.1 == key) with
  | none => rfl
  | some e =>
    dsimp only
    have hek : e.1 = key := by simpa using List.find?_some hf
    by_cases hst : c.ttl < now - e.2.2
    · rw [if_pos hst]
      unfold LRUCache.liveView
      by_cases hk : k = key
      · subst hk
        rw [find_filterNe_self, hf]
        simp [hst]
      · rw [find_filterNe_ne _ _ _ hk]
    · rw [if_neg hst]
      unfold LRUCache.liveView
      by_cases hk : k = key
      · subst hk
        have h1 : (e.1 == k) = true := by simp [hek]
        rw [List.find?_cons, h1, hf]
      · have h1 : (e.1 == k) = false := by
          simp only [beq_eq_false_iff_ne, ne_eq, hek]
          exact fun hh => hk hh.symm
        rw [List.find?_cons, h1, find_filterNe_ne _ _ _ hk]

/-- Evaluating `set` when the token's entry sits at the front of the
cache and no other entry carries the token. -/
theorem LRUCache.set_cons (c : LRUCache) (now : Int) (token : String)
    (v L : List Int) (s : Int) (R : List (String × List Int × Int))
    (hc : c.entries = (token, L, s) :: R)
    (hR : ∀ e ∈ R, e.1 ≠ token) :
    c.set now token v = ⟨c.max, c.ttl, (token, v, now) :: R.take (c.max - 1)⟩ := by
  unfold LRUCache.set
  rw [hc, List.filter_cons]
  have h1 : (((token, L, s) : String × List Int × Int).1 != token) = false := by simp
  rw [h1]
  simp only [Bool.false_eq_true, if_false]
  rw [List.filter_eq_self.mpr (fun a ha => by simp [hR a ha])]

/-- Run invariant: with the token's entry at the front of the cache
holding `k` in-window timestamps, a run of further calls (all within
`interval` of the window start `t0`) stays allowed until `limit = n`
timestamps are recorded and is denied on the call after that. -/
theorem runChecks_aux (o : RateLimitOptions) (n : Nat) (token : String) (t0 : Int) :
    ∀ (ts : List Int) (k : Nat) (m : Nat) (ttl lastT : Int) (L : List Int)
      (R : List (String × List Int × Int)),
      o.interval ≤ ttl →
      (∀ t ∈ ts, t0 ≤ t ∧ t - t0 < o.interval) →
      (∀ p ∈ L, t0 ≤ p) →
      t0 ≤ lastT →
      (∀ e ∈ R, e.1 ≠ token) →
      L.length = k →
      k + ts.length = n + 1 →
      k ≤ n →
      (runChecks o (n : Int) token ⟨m, ttl, (token, L, lastT) :: R⟩ ts).map Prod.fst
        = List.replicate (n - k) true ++ [false] := by
  intro ts
  induction ts with
  | nil =>
    intro k m ttl lastT L R _ _ _ _ _ _ hsum hle
    simp only [List.length_nil] at hsum
    omega
  | cons t ts ih =>
    intro k m ttl lastT L R httl hts hL hlast hR hk hsum hle
    have ht : t0 ≤ t ∧ t - t0 < o.interval := hts t (List.mem_cons_self t ts)
    have hlive : ¬ ((⟨m, ttl, (token, L, lastT) :: R⟩ : LRUCache).ttl < t - lastT) := by
      dsimp only
      omega
    have hget := LRUCache.get_head_live ⟨m, ttl, (token, L, lastT) :: R⟩ t token L
      lastT R rfl hR hlive
    have hchk := check_eq_of_get o _ _ t (n : Int) token (some L) hget
    have hfil : L.filter (fun p => decide (t - p < o.interval)) = L :=
      List.filter_eq_self.mpr (fun p hp => by
        have h1 := hL p hp
        have h2 := ht.2
        simp only [decide_eq_true_eq]
        omega)
    simp only [Option.getD_some, hfil] at hchk
    rcases Nat.lt_or_ge k n with hkn | hkn
    · have hcond : ¬ ((n : Int) ≤ (L.length : Int)) := by
        rw [hk]
        exact_mod_cast Nat.not_le.mpr hkn
      rw [if_neg hcond] at hchk
      have hset := LRUCache.set_cons ⟨m, ttl, (token, L, lastT) :: R⟩ t token
        (L ++ [t]) L lastT R rfl hR
      simp only [runChecks, hchk, hset]
      have hrec := ih (k + 1) m ttl t (L ++ [t]) (R.take (m - 1))
        httl
        (fun x hx => hts x (List.mem_cons_of_mem t hx))
        (fun p hp => by
          rcases List.mem_append.mp hp with h | h
          · exact hL p h
          · rw [List.mem_singleton.mp h]; exact ht.1)
        ht.1
        (fun e he => hR e (List.mem_of_mem_take he))
        (by simp [hk])
        (by simp only [List.length_cons] at hsum; omega)
        (by omega)
      have hnk : n - k = (n - (k + 1)) + 1 := by omega
      rw [List.map_cons, hrec, hnk, List.replicate_succ]
      rfl
    · have hkeq : k = n := Nat.le_antisymm hle hkn
      have hcond : ((n : Int) ≤ (L.length : Int)) := by
        rw [hk, hkeq]
      rw [if_pos hcond] at hchk
      have htsnil : ts = [] := by
        have : ts.length = 0 := by
          simp only [List.length_cons] at hsum
          omega
        exact List.eq_nil_of_length_eq_zero this
      subst htsnil
      simp only [runChecks, hchk]
      simp [hkeq]

/-- C1 (amended): for `limit > 0` and a fresh key, provided the first
call's clock value is at least `interval` (so the `[0]` sentinel is
pruned; with an epoch-milliseconds clock this always holds), a run of
`limit + 1` calls all within `interval` milliseconds of the first has
its first `limit` calls allowed and its `(limit + 1)`th call denied. -/
theorem check_window_exact_admission (o : RateLimitOptions) (n : Nat)
    (token : String) (t0 : Int) (ts : List Int) (c : LRUCache)
    (hn : 0 < n)
    (hfresh : ∀ e ∈ c.entries, e.1 ≠ token)
    (httl : o.interval ≤ c.ttl)
    (ht0 : o.interval ≤ t0)
    (hts : ∀ t ∈ t0 :: ts, t0 ≤ t ∧ t - t0 < o.interval)
    (hlen : ts.length = n) :
    (runChecks o (n : Int) token c (t0 :: ts)).map Prod.fst =
      List.replicate n true ++ [false] := by
  have hget := LRUCache.get_of_fresh c t0 token hfresh
  have hchk := check_eq_of_get o c c t0 (n : Int) token none hget
  have hd : (decide (t0 - (0 : Int) < o.interval)) = false := decide_eq_false (by omega)
  simp only [Option.getD_none, List.filter_cons, hd, Bool.false_eq_true, if_false,
    List.filter_nil, List.length_nil, Nat.cast_zero] at hchk
  have hcond : ¬ ((n : Int) ≤ (0 : Int)) := by exact_mod_cast Nat.not_le.mpr hn
  rw [if_neg hcond] at hchk
  have hsetfil : c.entries.filter (fun x => x.1 != token) = c.entries :=
    List.filter_eq_self.mpr (fun a ha => by simp [hfresh a ha])
  have hset : c.set t0 token ([] ++ [t0]) =
      ⟨c.max, c.ttl, (token, [t0], t0) :: c.entries.take (c.max - 1)⟩ := by
    unfold LRUCache.set
    rw [hsetfil]
    simp
  simp only [runChecks, hchk, hset, List.map_cons]
  have hrec := runChecks_aux o n token t0 ts 1 c.max c.ttl t0 [t0]
    (c.entries.take (c.max - 1))
    httl
    (fun x hx => hts x (List.mem_cons_of_mem t0 hx))
    (fun p hp => by rw [List.mem_singleton.mp hp])
    le_rfl
    (fun e he => hfresh e (List.mem_of_mem_take he))
    (by simp)
    (by omega)
    hn
  rw [hrec]
  have hn1 : n = (n - 1) + 1 := by omega
  rw [hn1, List.replicate_succ]
  simp

/-- C1 witness: concrete run with `limit = 2`, a fresh key, and three
calls inside one window starting at clock value 1000. -/
theorem check_window_exact_admission_witness :
    (runChecks ⟨1000, 500⟩ 2 "k" (rateLimit ⟨1000, 500⟩) [1000, 1000, 1001]).map Prod.fst =
      List.replicate 2 true ++ [false] :=
  check_window_exact_admission ⟨1000, 500⟩ 2 "k" 1000 [1000, 1001]
    (rateLimit ⟨1000, 500⟩) (by decide) (by decide) (by decide) (by decide)
    (by decide) (by decide)

/-- C1 counterexample: with `limit = 1 > 0`, a fresh key, and both
calls at clock value 0 (trivially within `interval` of the first), the
claim predicts verdicts `[true, false]`, but the `[0]` sentinel is
still inside the window (`0 - 0 < 1000`), so the very first call is
already denied: the code yields `[false, false]`. -/
theorem check_window_first_call_denied_at_zero :
    (runChecks ⟨1000, 500⟩ 1 "k" (rateLimit ⟨1000, 500⟩) [0, 0]).map Prod.fst =
      [false, false] := by decide

/-- C5 (amended): a fresh key is treated as the sentinel sequence
`[0]`; provided the call's clock value is at least `interval` the
sentinel is pruned before the length comparison, and the first call
with `limit > 0` is allowed with `remaining = limit - 1`. -/
theorem check_fresh_key_first_call (o : RateLimitOptions) (c : LRUCache)
    (now limit : Int) (token : String)
    (hfresh : ∀ e ∈ c.entries, e.1 ≠ token)
    (hnow : o.interval ≤ now)
    (hlim : 0 < limit) :
    (check o c now limit token).1 = (true, limit - 1) := by
  have hget := LRUCache.get_of_fresh c now token hfresh
  have hchk := check_eq_of_get o c c now limit token none hget
  have hd : (decide (now - (0 : Int) < o.interval)) = false := decide_eq_false (by omega)
  simp only [Option.getD_none, List.filter_cons, hd, Bool.false_eq_true, if_false,
    List.filter_nil, List.length_nil, Nat.cast_zero] at hchk
  rw [if_neg (by omega)] at hchk
  rw [hchk]
  norm_num

/-- C5 witness: first call on a fresh key at clock value 1000 with
`limit = 3` is allowed with two calls remaining. -/
theorem check_fresh_key_first_call_witness :
    (check ⟨1000, 500⟩ (rateLimit ⟨1000, 500⟩) 1000 3 "k").1 = (true, 3 - 1) :=
  check_fresh_key_first_call ⟨1000, 500⟩ (rateLimit ⟨1000, 500⟩) 1000 3 "k"
    (by decide) (by decide) (by decide)

/-- C5 counterexample: at clock value 0 the sentinel `0` satisfies
`0 - 0 < interval`, so it survives pruning and is counted as a real
call: the first ever call on a fresh key with `limit = 1 > 0` is
denied instead of allowed. -/
theorem check_fresh_key_denied_at_zero :
    (check ⟨1000, 500⟩ (rateLimit ⟨1000, 500⟩) 0 1 "k").1 = (false, 0) := by decide

/-- C7: for `limit ≤ 0` every call is denied, since the pruned
sequence's length is at least 0 and thus at least `limit`. -/
theorem check_nonpositive_limit_denies (o : RateLimitOptions) (c : LRUCache)
    (now limit : Int) (token : String) (hlim : limit ≤ 0) :
    ((check o c now limit token).1).1 = false := by
  have hchk := check_eq_of_get o c ((c.get now token).2) now limit token
    ((c.get now token).1) rfl
  rw [hchk, if_pos (le_trans hlim (Int.natCast_nonneg _))]

/-- C7 witness: a call with `limit = 0` on a fresh key is denied. -/
theorem check_nonpositive_limit_denies_witness :
    ((check ⟨1000, 500⟩ (rateLimit ⟨1000, 500⟩) 5 0 "k").1).1 = false :=
  check_nonpositive_limit_denies ⟨1000, 500⟩ (rateLimit ⟨1000, 500⟩) 5 0 "k"
    (by decide)

/-- When a `get` returns a value, that value is the stored timestamp
list of an entry of the cache carrying the queried key. -/
theorem LRUCache.get_some_mem (c : LRUCache) (now : Int) (key : String)
    (L : List Int) (h : (c.get now key).1 = some L) :
    ∃ e ∈ c.entries, e.1 = key ∧ e.2.1 = L := by
  unfold LRUCache.get at h
  cases hf : c.entries.find? (fun e => e.1 == key) with
  | none => rw [hf] at h; simp at h
  | some e =>
    rw [hf] at h
    dsimp only at h
    by_cases hst : c.ttl < now - e.2.2
    · rw [if_pos hst] at h
      simp at h
    · rw [if_neg hst] at h
      simp only [Option.some.injEq] at h
      exact ⟨e, List.mem_of_find?_eq_some hf, by simpa using List.find?_some hf, h⟩

/-- C8: a key whose every stored timestamp is at most `t0` is allowed
again by the first `check` with `limit > 0` occurring strictly more
than `interval` milliseconds after `t0`: every old timestamp has slid
out of the window (and the sentinel of an expired entry is pruned
too). -/
theorem check_idle_key_allowed_again (o : RateLimitOptions) (c : LRUCache)
    (now t0 limit : Int) (token : String)
    (hlim : 0 < limit)
    (ht0 : 0 ≤ t0)
    (hgap : t0 + o.interval < now)
    (hstored : ∀ e ∈ c.entries, e.1 = token → ∀ p ∈ e.2.1, p ≤ t0) :
    ((check o c now limit token).1).1 = true := by
  have hchk := check_eq_of_get o c ((c.get now token).2) now limit token
    ((c.get now token).1) rfl
  have hval : (((c.get now token).1).getD [0]).filter
      (fun p => decide (now - p < o.interval)) = [] := by
    cases hg : (c.get now token).1 with
    | none =>
      have hd : (decide (now - (0 : Int) < o.interval)) = false :=
        decide_eq_false (by omega)
      simp only [Option.getD_none, List.filter_cons, hd, Bool.false_eq_true, if_false,
        List.filter_nil]
    | some L =>
      simp only [Option.getD_some]
      obtain ⟨e, he, hek, hev⟩ := LRUCache.get_some_mem c now token L hg
      rw [List.filter_eq_nil_iff]
      intro p hp
      have hp2 : p ∈ e.2.1 := by rw [hev]; exact hp
      have hpt0 : p ≤ t0 := hstored e he hek p hp2
      simp only [decide_eq_true_eq]
      omega
  rw [hval] at hchk
  simp only [List.length_nil, Nat.cast_zero] at hchk
  rw [if_neg (by omega)] at hchk
  rw [hchk]

/-- C8 witness: a key exhausted by calls up to time 60 is allowed again
at time 2000, more than one 1000 ms window later. -/
theorem check_idle_key_allowed_again_witness :
    ((check ⟨1000, 500⟩ ⟨500, 1000, [("k", [50, 60], 60)]⟩ 2000 1 "k").1).1 = true :=
  check_idle_key_allowed_again ⟨1000, 500⟩ ⟨500, 1000, [("k", [50, 60], 60)]⟩
    2000 60 1 "k" (by decide) (by decide) (by decide) (by decide)

/-- C3 (amended): a denied `check` returns exactly `{allowed: false,
remaining: 0}` and performs no write: what every key maps to, as
observable by reads at the same instant, is unchanged, so the rejected
call does not count toward future windows.  (The read itself may still
refresh the key's LRU recency or lazily drop an already-expired entry,
so the raw store state need not be identical.) -/
theorem check_denied_preserves_live_entries (o : RateLimitOptions) (c : LRUCache)
    (now limit : Int) (token : String)
    (hden : ((check o c now limit token).1).1 = false) :
    (check o c now limit token).1 = (false, 0) ∧
      ∀ k, ((check o c now limit token).2).liveView now k = c.liveView now k := by
  have hchk := check_eq_of_get o c ((c.get now token).2) now limit token
    ((c.get now token).1) rfl
  rw [hchk] at hden ⊢
  split at hden
  case isTrue h =>
    rw [if_pos h]
    exact ⟨rfl, fun k => LRUCache.get_liveView c now token k⟩
  case isFalse h =>
    simp at hden

/-- C3 witness: a denied call on a one-entry store returns the
`(false, 0)` verdict. -/
theorem check_denied_preserves_live_entries_witness :
    (check ⟨1000, 500⟩ ⟨500, 1000, [("k", [100], 100)]⟩ 200 1 "k").1 = (false, 0) :=
  (check_denied_preserves_live_entries ⟨1000, 500⟩ ⟨500, 1000, [("k", [100], 100)]⟩
    200 1 "k" (by decide)).1

/-- C3 counterexample: a denied call is not a no-op on the raw store
state: the read-through touch moves the queried key's entry to the
most-recently-used position, so after a denied `check` on key `b` the
store differs from what it was before (the entry order changed from
`[a, b]` to `[b, a]`). -/
theorem check_denied_reorders_store :
    ((check ⟨1000, 500⟩ ⟨500, 1000, [("a", [10], 10), ("b", [10], 10)]⟩ 20 1 "b").1).1 = false ∧
      (check ⟨1000, 500⟩ ⟨500, 1000, [("a", [10], 10), ("b", [10], 10)]⟩ 20 1 "b").2 ≠
        ⟨500, 1000, [("a", [10], 10), ("b", [10], 10)]⟩ := by decide

/-- C4 (amended): `remaining` is nonnegative on every allowed call and
exactly 0 on every denied call; and across two successive allowed calls
on the same key it decreases by exactly 1 provided every timestamp
recorded by the first call is still inside the window at the second
call (when a timestamp slides out between the calls, `remaining` can
stay the same or grow instead). -/
theorem check_remaining_semantics (o : RateLimitOptions) :
    (∀ (c : LRUCache) (now limit : Int) (token : String),
        ((check o c now limit token).1).1 = true →
        0 ≤ ((check o c now limit token).1).2)
    ∧ (∀ (c : LRUCache) (now limit : Int) (token : String),
        ((check o c now limit token).1).1 = false →
        ((check o c now limit token).1).2 = 0)
    ∧ (∀ (c c1 : LRUCache) (t1 t2 r1 limit : Int) (token : String),
        check o c t1 limit token = ((true, r1), c1) →
        o.interval ≤ c1.ttl →
        (∀ p ∈ (c1.peek token).getD [], t2 - p < o.interval) →
        ((check o c1 t2 limit token).1).1 = true →
        ((check o c1 t2 limit token).1).2 = r1 - 1) := by
  refine ⟨?_, ?_, ?_⟩
  · intro c now limit token h
    have hchk := check_eq_of_get o c ((c.get now token).2) now limit token
      ((c.get now token).1) rfl
    rw [hchk] at h ⊢
    split at h
    case isTrue hc => simp at h
    case isFalse hc =>
      rw [if_neg hc]
      dsimp only
      omega
  · intro c now limit token h
    have hchk := check_eq_of_get o c ((c.get now token).2) now limit token
      ((c.get now token).1) rfl
    rw [hchk] at h ⊢
    split at h
    case isTrue hc => rw [if_pos hc]
    case isFalse hc => simp at h
  · intro c c1 t1 t2 r1 limit token h1 httl hexp h2
    rw [check_eq_of_get o c ((c.get t1 token).2) t1 limit token
      ((c.get t1 token).1) rfl] at h1
    split at h1
    case isTrue hc => simp at h1
    case isFalse hc =>
      simp only [Prod.mk.injEq] at h1
      obtain ⟨⟨-, hr1⟩, hc1⟩ := h1
      subst hc1
      have hpeek : (((c.get t1 token).2.set t1 token
          (((c.get t1 token).1.getD [0]).filter (fun p => decide (t1 - p < o.interval)) ++ [t1])).peek token) =
          some (((c.get t1 token).1.getD [0]).filter (fun p => decide (t1 - p < o.interval)) ++ [t1]) := by
        unfold LRUCache.peek LRUCache.set
        rw [List.find?_cons]
        simp
      rw [hpeek] at hexp
      simp only [Option.getD_some] at hexp
      have hREST : ∀ e ∈ (((c.get t1 token).2.entries.filter
          (fun x => x.1 != token)).take ((c.get t1 token).2.max - 1)), e.1 ≠ token := by
        intro e he
        have hm := (List.mem_filter.mp (List.mem_of_mem_take he)).2
        simpa using hm
      have hlive : ¬ (((c.get t1 token).2.set t1 token
          (((c.get t1 token).1.getD [0]).filter (fun p => decide (t1 - p < o.interval)) ++ [t1])).ttl <
            t2 - t1) := by
        have ht1 := hexp t1 (List.mem_append_right _ (List.mem_singleton_self t1))
        unfold LRUCache.set at httl ⊢
        dsimp only at httl ⊢
        omega
      have hget2 := LRUCache.get_head_live
        ((c.get t1 token).2.set t1 token
          (((c.get t1 token).1.getD [0]).filter (fun p => decide (t1 - p < o.interval)) ++ [t1]))
        t2 token
        (((c.get t1 token).1.getD [0]).filter (fun p => decide (t1 - p < o.interval)) ++ [t1])
        t1
        (((c.get t1 token).2.entries.filter (fun x => x.1 != token)).take ((c.get t1 token).2.max - 1))
        rfl hREST hlive
      have hchk2 := check_eq_of_get o _ _ t2 limit token _ hget2
      have hfil2 : ((((c.get t1 token).1.getD [0]).filter (fun p => decide (t1 - p < o.interval)) ++ [t1]).filter
          (fun p => decide (t2 - p < o.interval))) =
          (((c.get t1 token).1.getD [0]).filter (fun p => decide (t1 - p < o.interval)) ++ [t1]) :=
        List.filter_eq_self.mpr (fun p hp => by
          have := hexp p hp
          simpa using this)
      rw [hchk2] at h2 ⊢
      simp only [Option.getD_some, hfil2] at h2 ⊢
      split at h2
      case isTrue hc2 => simp at h2
      case isFalse hc2 =>
        rw [if_neg hc2]
        dsimp only
        rw [List.length_append] at hc2 ⊢
        simp only [List.length_singleton]
        omega

/-- C4 witness: two successive allowed calls 100 ms apart inside one
window report `remaining = 2` then `remaining = 2 - 1`. -/
theorem check_remaining_semantics_witness :
    ((check ⟨1000, 500⟩ ⟨500, 1000, [("k", [1000], 1000)]⟩ 1100 3 "k").1).2 = 2 - 1 :=
  (check_remaining_semantics ⟨1000, 500⟩).2.2 (rateLimit ⟨1000, 500⟩)
    ⟨500, 1000, [("k", [1000], 1000)]⟩ 1000 1100 2 3 "k" (by decide) (by decide)
    (by decide) (by decide)

/-- C4 counterexample: with `limit = 3` and a 1000 ms window, calls at
clock values 2000 and 3500 are both allowed and both report
`remaining = 2`: the first call's timestamp has slid out of the window
before the second call, so `remaining` does not strictly decrease by 1
with each successive allowed call. -/
theorem check_remaining_not_strictly_decreasing :
    runChecks ⟨1000, 500⟩ 3 "k" (rateLimit ⟨1000, 500⟩) [2000, 3500] =
      [(true, 2), (true, 2)] := by decide

/-- C9: when `max ≥ 1` both store operations preserve the bound of at
most `max` entries; a `set` of a fresh key at capacity evicts exactly
the least-recently-used (last) entry; and an entry older than `ttl` is
returned as absent on its next access, like a never-seen key. -/
theorem store_bounded_lru_ttl :
    (∀ (c : LRUCache) (now : Int) (k : String) (v : List Int),
        1 ≤ c.max → c.entries.length ≤ c.max →
        (c.set now k v).entries.length ≤ c.max ∧
          ((c.get now k).2).entries.length ≤ c.max)
    ∧ (∀ (c : LRUCache) (now : Int) (k : String) (v : List Int),
        c.entries.length = c.max → (∀ e ∈ c.entries, e.1 ≠ k) →
        (c.set now k v).entries = (k, v, now) :: c.entries.dropLast)
    ∧ (∀ (c : LRUCache) (now : Int) (k : String) (e : String × List Int × Int),
        c.entries.find? (fun x => x.1 == k) = some e → c.ttl < now - e.2.2 →
        (c.get now k).1 = none) := by
  refine ⟨?_, ?_, ?_⟩
  · intro c now k v hmax hlen
    constructor
    · unfold LRUCache.set
      dsimp only
      rw [List.length_cons]
      have htake := List.length_take_le (c.max - 1)
        (c.entries.filter (fun x => x.1 != k))
      omega
    · unfold LRUCache.get
      cases hf : c.entries.find? (fun x => x.1 == k) with
      | none => exact hlen
      | some e =>
        dsimp only
        by_cases hst : c.ttl < now - e.2.2
        · rw [if_pos hst]
          dsimp only
          have := List.length_filter_le (fun x => x.1 != k) c.entries
          omega
        · rw [if_neg hst]
          dsimp only
          rw [List.length_cons]
          have hek : e.1 = k := by simpa using List.find?_some hf
          have hlt : (c.entries.filter (fun x => x.1 != k)).length < c.entries.length :=
            List.length_filter_lt_length_iff_exists.mpr
              ⟨e, List.mem_of_find?_eq_some hf, by simp [hek]⟩
          omega
  · intro c now k v hlen hfresh
    unfold LRUCache.set
    dsimp only
    rw [List.filter_eq_self.mpr (fun a ha => by simp [hfresh a ha])]
    rw [List.dropLast_eq_take, hlen]
  · intro c now k e hf hst
    unfold LRUCache.get
    rw [hf]
    dsimp only
    rw [if_pos hst]

/-- C9 witness: a store at capacity 2 receiving a third key keeps the
new key and the most recent old key, evicting the least recent. -/
theorem store_bounded_lru_ttl_witness :
    (LRUCache.set ⟨2, 1000, [("a", [], 0), ("b", [], 0)]⟩ 5 "c" []).entries =
      [("c", [], 5), ("a", [], 0)] :=
  store_bounded_lru_ttl.2.1 ⟨2, 1000, [("a", [], 0), ("b", [], 0)]⟩ 5 "c" []
    (by decide) (by decide)

/-- C6 (amended): the source's key derivation returns `user:` plus a
present non-empty userId, else `ip:` plus the first present **and
non-empty** address header value, else `ip:unknown`: an address header
that is present but empty falls through to the next fallback. -/
theorem getRateLimitIdentifier_eq_amended (req : NextRequest)
    (userId : Option String) :
    getRateLimitIdentifier req userId = identifyAmended req userId := by
  have hip : jsOrStr (req.headers "x-forwarded-for")
      (jsOrStr (req.headers "x-real-ip") "unknown") =
      (match req.headers "x-forwarded-for" with
       | some v =>
         if v = "" then
           match req.headers "x-real-ip" with
           | some w => if w = "" then "unknown" else w
           | none => "unknown"
         else v
       | none =>
         match req.headers "x-real-ip" with
         | some w => if w = "" then "unknown" else w
         | none => "unknown") := by
    unfold jsOrStr
    cases req.headers "x-forwarded-for" with
    | none => cases req.headers "x-real-ip" <;> rfl
    | some v => cases req.headers "x-real-ip" <;> rfl
  cases userId with
  | none =>
    unfold getRateLimitIdentifier identifyAmended identifyAmendedIp
    simp only [Option.getD_none, ne_eq, not_true_eq_false, if_false, hip]
  | some u =>
    unfold getRateLimitIdentifier identifyAmended identifyAmendedIp
    by_cases hu : u = ""
    · simp only [hu, Option.getD_some, ne_eq, not_true_eq_false, if_false, if_true, hip]
    · simp only [Option.getD_some, ne_eq, hu, not_false_eq_true, if_true, if_false]

/-- C6 counterexample: with no userId, a present-but-empty
`x-forwarded-for` header and `x-real-ip: 1.2.3.4`, the claim's
description yields `"ip:"` (the empty forwarded value), but the source
treats the empty string as falsy and yields `"ip:1.2.3.4"`. -/
theorem getRateLimitIdentifier_empty_header_differs :
    getRateLimitIdentifier
        ⟨fun h => if h = "x-forwarded-for" then some ""
          else if h = "x-real-ip" then some "1.2.3.4" else none⟩ none = "ip:1.2.3.4" ∧
      identifyClaim
        ⟨fun h => if h = "x-forwarded-for" then some ""
          else if h = "x-real-ip" then some "1.2.3.4" else none⟩ none = "ip:" := by
  decide

/-- C10 (amended): validation returns false when the `content-type`
header is absent **or empty**, and for a present non-empty value it
returns true exactly when the value starts, case-insensitively, with
the expected type (so a charset suffix is accepted). -/
theorem validateContentType_spec_amended (f : String → Option String) (e : String) :
    (f "content-type" = none → validateContentType ⟨f⟩ e = false)
    ∧ (∀ v, f "content-type" = some v →
        (validateContentType ⟨f⟩ e = true ↔
          v ≠ "" ∧ strStartsWith (strToLower v) (strToLower e) = true)) := by
  constructor
  · intro h
    unfold validateContentType
    dsimp only
    rw [h]
  · intro v h
    unfold validateContentType
    dsimp only
    rw [h]
    by_cases hv : v = "" <;> simp [hv]

/-- C10 witness: a JSON content type with a charset suffix and mixed
case is accepted for expected type `application/json`. -/
theorem validateContentType_spec_amended_witness :
    validateContentType
      ⟨fun h => if h = "content-type" then some "Application/JSON; charset=utf-8" else none⟩
      "application/json" = true :=
  ((validateContentType_spec_amended
      (fun h => if h = "content-type" then some "Application/JSON; charset=utf-8" else none)
      "application/json").2 "Application/JSON; charset=utf-8" (by decide)).mpr
    (by decide)

/-- C10 counterexample: with a present-but-empty `content-type` header
and expected type `""`, every string starts with the empty string so
the claim's description returns true, but the source's falsy check on
the header value returns false. -/
theorem validateContentType_empty_value_differs :
    validateContentType ⟨fun h => if h = "content-type" then some "" else none⟩ "" = false ∧
      validateContentTypeClaim ⟨fun h => if h = "content-type" then some "" else none⟩ "" = true := by
  decide

